import Mathlib

/-!
Verification of the momentum-backtest core of this repository: a shallow
embedding of `src/momentum/metrics.py`, `scripts/build_momentum.py`,
`scripts/build_momentum_multi.py` and `scripts/build_portfolio.py`.

Modelling conventions:
* dates are month indices (`Nat`);
* prices and returns are exact rationals (`ℚ`);
* a missing / `NaN` / coercion-failed value is `Option.none`;
* a pandas `Series` is an association list of (date, optional value) pairs.
-/

namespace Momentum

/-- A pandas `Series` of monthly values indexed by date.  `none` models a
missing (`NaN`) entry. -/
abbrev Series := List (Nat × Option ℚ)

/-- `s.dropna().values`: the non-missing values of a series, in order. -/
def dropnaVals (s : Series) : List ℚ := s.filterMap (fun p => p.2)

/-- `s.sort_index()`: sort the (date, value) pairs by date (stable). -/
def sortIndex (s : Series) : Series :=
  List.insertionSort (fun a b => a.1 ≤ b.1) s

/-- Minimum of a list of dates; `none` on the empty list.  Models
`s.index.min()` (via `indexMin`) and Python's `min`. -/
def minOf : List Nat → Option Nat
  | [] => none
  | x :: xs => some ((minOf xs).elim x (min x))

/-- Maximum of a list of dates; `none` on the empty list.  Python's `max`
raises `ValueError` on an empty sequence, modelled by `none`. -/
def maxOf : List Nat → Option Nat
  | [] => none
  | x :: xs => some ((maxOf xs).elim x (max x))

/-- `s.index.min()`: earliest date of a series; `none` iff the series is
empty (`s.empty` in pandas is about the index length, not the values). -/
def indexMin (s : Series) : Option Nat := minOf (s.map Prod.fst)

/-- Running products: `cumprodFrom 1 [a, b, c] = [a, a*b, a*b*c]`.
Models `Series.cumprod()`. -/
def cumprodFrom (acc : ℚ) : List ℚ → List ℚ
  | [] => []
  | x :: xs => (acc * x) :: cumprodFrom (acc * x) xs

/-- `cum_index` from `src/momentum/metrics.py`:
sort by date, `(1.0 + r.fillna(0)).cumprod()`, `shift(1, fill_value=1.0)`
(modelled by prepending `1` and truncating to the original length), then
multiply by `start`.  Returns the (date, value) pairs of the result. -/
def cum_index (returns : Series) (start : ℚ) : List (Nat × ℚ) :=
  let r := sortIndex returns
  let cum := cumprodFrom 1 (r.map (fun p => 1 + p.2.getD 0))
  let shifted := (1 :: cum).take r.length
  (r.map Prod.fst).zip (shifted.map (fun v => v * start))

/-- Sample variance with `ddof = 1`.  numpy's `std(ddof=1)` of fewer than two
values is `NaN`; since the only consumer (`sortino`) tests `dvol > 0` — a test
that `NaN` fails exactly as `0` does — that case is folded into variance `0`. -/
def sampleVar (xs : List ℚ) : ℚ :=
  if xs.length ≤ 1 then 0
  else
    let n : ℚ := xs.length
    let m := xs.sum / n
    (xs.map (fun x => (x - m) ^ 2)).sum / (n - 1)

/-- A float result of which the claims distinguish only the branch taken:
`nan`, `+∞`, or a finite value.  The finite Sortino value
`cagr(r) / (std(neg, ddof=1) * sqrt 12)` is irrational in general; it is
determined by the exact ingredients recorded in `val`: the total product
`Π (1+rᵢ)`, the observation count `n`, and the downside sample variance. -/
inductive MetricValue where
  | nan : MetricValue
  | posInf : MetricValue
  | val (total : ℚ) (n : Nat) (downsideVariance : ℚ) : MetricValue
deriving DecidableEq, Repr

/-- `sortino` from `src/momentum/metrics.py`: drop missing values; `NaN` on an
empty series; `+∞` when there are zero negative observations; otherwise
`cagr(r) / dvol` when `dvol > 0` (recorded by its ingredients) and `NaN` when
the downside deviation is zero or undefined. -/
def sortino (r : Series) : MetricValue :=
  let a := dropnaVals r
  if a.isEmpty then .nan
  else
    let neg := a.filter (fun x => decide (x < 0))
    if neg.length = 0 then .posInf
    else
      let dvar := sampleVar neg
      if 0 < dvar then .val ((a.map (fun x => 1 + x)).prod) a.length dvar
      else .nan

/-- `int(round(n ** 0.25))` in exact arithmetic.  With
`m = ⌊(16n)^(1/4)⌋ = ⌊2·n^(1/4)⌋` (two nested integer square roots), the
nearest integer to `n^(1/4)` is `(m + 1) / 2`; a tie `n^(1/4) = k + 1/2`
is impossible for integer `n` since `(2k+1)^4` is odd. -/
def root4Round (n : Nat) : Nat := (Nat.sqrt (Nat.sqrt (16 * n)) + 1) / 2

/-- `hac_t_pvalue` from `src/momentum/metrics.py`.  The t- and p-values come
from a `statsmodels` OLS fit with HAC covariance — an external library call;
the model records the data vector and the `maxlags` passed to that call.
`none` models the `(nan, nan)` sentinel returned when fewer than 8
observations survive `dropna`. -/
def hac_t_pvalue (active : Series) (lags : Option Nat) : Option (List ℚ × Nat) :=
  let a := dropnaVals active
  if a.length < 8 then none
  else some (a, lags.getD (max 1 (root4Round a.length)))

/-- `align_common_start` from `src/momentum/metrics.py`: collect the earliest
date of every non-empty series (and of the benchmark when non-empty), take
their maximum, and trim every series to dates `≥` that common start.
`none` models the `ValueError` Python's `max` raises on an empty sequence. -/
def align_common_start (seriesDict : List (String × Series)) (bench : Series) :
    Option (List (String × Series) × Series × Nat) :=
  let starts := seriesDict.filterMap (fun kv => indexMin kv.2) ++ (indexMin bench).toList
  match maxOf starts with
  | none => none
  | some commonStart =>
      some (seriesDict.map (fun kv => (kv.1, kv.2.filter (fun p => decide (commonStart ≤ p.1)))),
            bench.filter (fun p => decide (commonStart ≤ p.1)), commonStart)

/-! ## Momentum Calculator (`scripts/build_momentum_multi.py`) -/

/-- The monthly price panel handed to `compute_momentum`: rows in file order,
each carrying a date and one price cell per asset (benchmark column already
excluded, as the source slices `df.columns[2:]`).  A cell is `none` when the
price is missing or non-numeric — `pd.to_numeric(..., errors="coerce")` turns
an unparsable entry into `NaN` instead of raising. -/
structure Panel where
  rows : List (Nat × List (Option ℚ))
  assets : List String

/-- Price cell at row position `i`, asset position `j` of a price block;
`none` outside the block or where the cell itself is missing. -/
def cellAt (px : List (List (Option ℚ))) (i j : Nat) : Option ℚ :=
  ((px[i]?).bind (fun row => row[j]?)).join

/-- One cell of `px.shift(1) / px.shift(1 + lookback) - 1`: row `i` reads the
prices at row positions `i - 1` and `i - 1 - lookback` (absent when the shift
runs off the top of the frame or either price is missing).  A zero lagged
price yields a non-finite IEEE ratio in the source; it is modelled as an
absent score. -/
def momCell (px : List (List (Option ℚ))) (lookback i j : Nat) : Option ℚ :=
  match (if 1 ≤ i then cellAt px (i - 1) j else none),
        (if 1 + lookback ≤ i then cellAt px (i - 1 - lookback) j else none) with
  | some a, some b => if b = 0 then none else some (a / b - 1)
  | _, _ => none

/-- `df.sort_values("date")` / `.set_index("date").sort_index()`: the panel
rows sorted by date (stable). -/
def sortRows (P : Panel) : List (Nat × List (Option ℚ)) :=
  List.insertionSort (fun a b => a.1 ≤ b.1) P.rows

/-- The price block of the date-sorted panel. -/
def panelPx (P : Panel) : List (List (Option ℚ)) := (sortRows P).map Prod.snd

/-- `compute_momentum` from `scripts/build_momentum_multi.py`: sort by date,
compute the shifted price ratio per (row, asset) cell, melt to long format
(asset-major, as pandas `melt` stacks column by column) and drop rows whose
score is missing.  Each long row is (date, asset id `NR`, score). -/
def compute_momentum (P : Panel) (lookback : Nat) : List (Nat × String × ℚ) :=
  let sr := sortRows P
  let px := sr.map Prod.snd
  (List.range P.assets.length).flatMap (fun j =>
    (List.range sr.length).filterMap (fun i =>
      (momCell px lookback i j).map
        (fun v => ((sr.map Prod.fst).getD i 0, P.assets.getD j "", v))))

/-- The long 6-month momentum table of `scripts/build_momentum.py` (`main`,
steps 6–8): the same wide computation (`shift(1) / shift(7) - 1`, melt,
dropna — coinciding with `compute_momentum` at lookback 6) followed by the
outlier guard `(mom_6m > -2.0) & (mom_6m < 2.0)`. -/
def momentum_long_6m (P : Panel) : List (Nat × String × ℚ) :=
  (compute_momentum P 6).filter (fun e => decide (-2 < e.2.2 ∧ e.2.2 < 2))

/-! ## Portfolio Simulator (`scripts/build_portfolio.py`) -/

/-- One row of the long momentum table as loaded by `build_portfolio.py`:
`date` is `none` when `pd.to_datetime(..., errors="coerce")` produced `NaT`,
`nr` is the asset identifier, `score` is the `mom_{lookback}m` column. -/
structure MomRow where
  date : Option Nat
  nr : String
  score : Option ℚ
deriving DecidableEq, Repr

/-- The wide one-month-return panel `rets_wide`: a date index, a column set,
and a cell lookup (`none` = `NaN`). -/
structure RetsPanel where
  index : List Nat
  cols : List String
  cell : Nat → String → Option ℚ

/-- `sorted(mom["date"].dropna().unique())`: the distinct formation dates of
the momentum table, ascending. -/
def momDates (mom : List MomRow) : List Nat :=
  (List.insertionSort (fun a b => a ≤ b) (mom.filterMap MomRow.date)).dedup

/-- `mom[mom["date"] == formation_date].dropna(subset=[mom_col])`: the rows at
a formation date carrying a defined score, in table order. -/
def crossAt (mom : List MomRow) (d : Nat) : List MomRow :=
  mom.filter (fun r => decide (r.date = some d) && r.score.isSome)

/-- `cross.sort_values(mom_col, ascending=False)` modelled as a stable
descending sort on the score.  (numpy's default sort kind leaves the order of
tied scores implementation-defined; every property proved below is
insensitive to the order of ties.) -/
def sortDescByScore (cross : List MomRow) : List MomRow :=
  List.insertionSort (fun a b => b.score.getD 0 ≤ a.score.getD 0) cross

/-- The asset ids selected at a formation date:
`cross.sort_values(...).head(top_n)["NR"]`. -/
def tickersAt (mom : List MomRow) (topN : Nat) (d : Nat) : List String :=
  ((sortDescByScore (crossAt mom d)).take topN).map MomRow.nr

/-- The selected tickers that are columns of the return panel:
`[c for c in tickers if c in rets_wide.columns]`. -/
def selectedCols (mom : List MomRow) (rets : RetsPanel) (topN : Nat) (d : Nat) :
    List String :=
  (tickersAt mom topN d).filter (fun c => decide (c ∈ rets.cols))

/-- `r.mean(skipna=True)` over the non-missing values. -/
def meanQ (xs : List ℚ) : ℚ := xs.sum / (xs.length : ℚ)

/-- One iteration of the loop body of `build_portfolio_returns`: form at
`formation`, realize at `holding`; `none` models `continue` (period skipped,
nothing appended to `port_rets`). -/
def stepEmit (mom : List MomRow) (rets : RetsPanel) (topN : Nat)
    (formation holding : Nat) : Option (Nat × ℚ) :=
  let cross := crossAt mom formation
  if cross.isEmpty then none
  else
    if holding ∈ rets.index then
      let cols := selectedCols mom rets topN formation
      if cols.isEmpty then none
      else
        let vals := cols.filterMap (fun c => rets.cell holding c)
        if vals.isEmpty then none
        else some (holding, meanQ vals)
    else none

/-- `build_portfolio_returns` from `scripts/build_portfolio.py`: iterate over
consecutive pairs of distinct formation dates (`t`, `t+1`), collect the
emitted (holding date, equal-weight mean return) pairs; the empty list models
the explicitly empty `pd.Series(dtype=float)`. -/
def build_portfolio_returns (mom : List MomRow) (rets : RetsPanel) (topN : Nat) :
    List (Nat × ℚ) :=
  let ds := momDates mom
  (ds.zip ds.tail).filterMap (fun p => stepEmit mom rets topN p.1 p.2)

/-! ## Concrete instances used by witnesses and counterexamples -/

/-- A one-point series with a positive return. -/
def sortinoW : Series := [(0, some 1)]

/-- A 16-point constant series for the HAC witness. -/
def hacW : Series := (List.range 16).map (fun i => (i, some (1 : ℚ)))

/-- Two named series (one empty) for the alignment witness. -/
def alignSdW : List (String × Series) := [("A", [(5, some 1)]), ("B", [])]

/-- A benchmark series starting at date 3. -/
def alignBenchW : Series := [(3, some 2)]

/-- A mapping holding only an empty series. -/
def alignSdE : List (String × Series) := [("A", [])]

/-- An unsorted two-point series (with one missing value). -/
def cumW : Series := [(1, some (1/2)), (0, none)]

/-- A four-row constant-price panel with one asset. -/
def panelW : Panel := ⟨[(0, [some 2]), (1, [some 2]), (2, [some 2]), (3, [some 2])], ["A"]⟩

/-- An eight-row constant-price panel, long enough for a 6-month score. -/
def panelW8 : Panel :=
  ⟨[(0, [some 1]), (1, [some 1]), (2, [some 1]), (3, [some 1]),
    (4, [some 1]), (5, [some 1]), (6, [some 1]), (7, [some 1])], ["A"]⟩

/-- A panel whose price jumps tenfold: its 1-month momentum score is 9,
far outside (−2, 2). -/
def panelCex : Panel := ⟨[(0, [some 1]), (1, [some 10]), (2, [some 10])], ["A"]⟩

/-- A two-date momentum table over two assets. -/
def momW : List MomRow := [⟨some 0, "A", some 1⟩, ⟨some 1, "B", some 2⟩]

/-- A return panel covering date 1 with a defined return only for `"A"`. -/
def retsW : RetsPanel :=
  ⟨[1], ["A", "B"], fun d c => if d = 1 then (if c = "A" then some (1/10) else none) else none⟩

/-- A two-date momentum table over a single asset. -/
def momW2 : List MomRow := [⟨some 0, "A", some 1⟩, ⟨some 1, "A", some 1⟩]

/-- A return panel covering date 1 with a defined return for `"A"`. -/
def retsW2 : RetsPanel :=
  ⟨[1], ["A"], fun d c => if d = 1 then (if c = "A" then some (1/2) else none) else none⟩

/-! ## Helper lemmas -/

theorem minOf_eq_none {l : List Nat} (h : l = []) : minOf l = none := by
  subst h; rfl

theorem minOf_isSome {l : List Nat} (h : l ≠ []) : ∃ m, minOf l = some m := by
  cases l with
  | nil => exact absurd rfl h
  | cons x xs => exact ⟨_, rfl⟩

theorem maxOf_isSome {l : List Nat} (h : l ≠ []) : ∃ m, maxOf l = some m := by
  cases l with
  | nil => exact absurd rfl h
  | cons x xs => exact ⟨_, rfl⟩

theorem maxOf_mem : ∀ {l : List Nat} {m : Nat}, maxOf l = some m → m ∈ l := by
  intro l
  induction l with
  | nil => intro m h; simp [maxOf] at h
  | cons x xs ih =>
    intro m h
    rw [maxOf] at h
    injection h with h
    cases hm : maxOf xs with
    | none =>
      rw [hm] at h
      simp only [Option.elim] at h
      exact h ▸ List.mem_cons_self x xs
    | some k =>
      rw [hm] at h
      simp only [Option.elim] at h
      rcases max_choice x k with hc | hc
      · rw [hc] at h; exact h ▸ List.mem_cons_self x xs
      · rw [hc] at h; exact List.mem_cons_of_mem x (h ▸ ih hm)

theorem le_maxOf : ∀ {l : List Nat} {m : Nat}, maxOf l = some m → ∀ x ∈ l, x ≤ m := by
  intro l
  induction l with
  | nil => intro m h; simp [maxOf] at h
  | cons y ys ih =>
    intro m h x hx
    rw [maxOf] at h
    injection h with h
    cases hm : maxOf ys with
    | none =>
      have hys : ys = [] := by
        cases ys with
        | nil => rfl
        | cons a as => simp [maxOf] at hm
      subst hys
      rw [hm] at h
      simp only [Option.elim] at h
      rcases List.mem_cons.mp hx with rfl | hx
      · omega
      · exact absurd hx (List.not_mem_nil x)
    | some k =>
      rw [hm] at h
      simp only [Option.elim] at h
      rcases List.mem_cons.mp hx with rfl | hx
      · omega
      · have := ih hm x hx; omega

/-- Characterization of `root4Round` as the nearest integer to `n^(1/4)`:
`(2r - 1)^4 ≤ 16n < (2r + 1)^4`, i.e. `r - 1/2 ≤ n^(1/4) < r + 1/2`. -/
theorem root4Round_char (n : Nat) :
    (2 * root4Round n - 1) ^ 4 ≤ 16 * n ∧ 16 * n < (2 * root4Round n + 1) ^ 4 := by
  have h1 : Nat.sqrt (Nat.sqrt (16 * n)) * Nat.sqrt (Nat.sqrt (16 * n)) ≤ Nat.sqrt (16 * n) :=
    Nat.sqrt_le _
  have h2 : Nat.sqrt (16 * n) <
      (Nat.sqrt (Nat.sqrt (16 * n)) + 1) * (Nat.sqrt (Nat.sqrt (16 * n)) + 1) :=
    Nat.lt_succ_sqrt _
  have h3 : Nat.sqrt (16 * n) * Nat.sqrt (16 * n) ≤ 16 * n := Nat.sqrt_le _
  have h4 : 16 * n < (Nat.sqrt (16 * n) + 1) * (Nat.sqrt (16 * n) + 1) := Nat.lt_succ_sqrt _
  set m := Nat.sqrt (Nat.sqrt (16 * n)) with hmdef
  have hm4 : m ^ 4 ≤ 16 * n := by
    calc m ^ 4 = (m * m) * (m * m) := by ring
    _ ≤ Nat.sqrt (16 * n) * Nat.sqrt (16 * n) := Nat.mul_le_mul h1 h1
    _ ≤ 16 * n := h3
  have hM4 : 16 * n < (m + 1) ^ 4 := by
    have h5 : Nat.sqrt (16 * n) + 1 ≤ (m + 1) * (m + 1) := h2
    calc 16 * n < (Nat.sqrt (16 * n) + 1) * (Nat.sqrt (16 * n) + 1) := h4
    _ ≤ ((m + 1) * (m + 1)) * ((m + 1) * (m + 1)) := Nat.mul_le_mul h5 h5
    _ = (m + 1) ^ 4 := by ring
  have hr : root4Round n = (m + 1) / 2 := rfl
  have hdiv := Nat.div_add_mod (m + 1) 2
  have hmod : (m + 1) % 2 < 2 := Nat.mod_lt _ (by norm_num)
  constructor
  · have h5 : 2 * root4Round n - 1 ≤ m := by rw [hr]; omega
    calc (2 * root4Round n - 1) ^ 4 ≤ m ^ 4 := Nat.pow_le_pow_left h5 4
    _ ≤ 16 * n := hm4
  · have h6 : m + 1 ≤ 2 * root4Round n + 1 := by rw [hr]; omega
    calc 16 * n < (m + 1) ^ 4 := hM4
    _ ≤ (2 * root4Round n + 1) ^ 4 := Nat.pow_le_pow_left h6 4

theorem root4Round_ge_two {n : Nat} (hn : 8 ≤ n) : 2 ≤ root4Round n := by
  have ha : 9 ≤ Nat.sqrt (16 * n) := Nat.le_sqrt.mpr (by omega)
  have hb : 3 ≤ Nat.sqrt (Nat.sqrt (16 * n)) := Nat.le_sqrt.mpr (by omega)
  show 2 ≤ (Nat.sqrt (Nat.sqrt (16 * n)) + 1) / 2
  omega

theorem getD_take {α : Type} (l : List α) (n k : Nat) (d : α) (hk : k < n) :
    (l.take n).getD k d = l.getD k d := by
  induction l generalizing n k with
  | nil => simp
  | cons x xs ih =>
    cases n with
    | zero => omega
    | succ m =>
      cases k with
      | zero => rfl
      | succ j => simpa using ih m j (by omega)

theorem cumprodFrom_length (acc : ℚ) (l : List ℚ) : (cumprodFrom acc l).length = l.length := by
  induction l generalizing acc with
  | nil => rfl
  | cons x xs ih => simp [cumprodFrom, ih]

theorem cumprodFrom_getD (acc : ℚ) (l : List ℚ) (k : Nat) (hk : k < l.length) :
    (cumprodFrom acc l).getD k 0 = acc * (l.take (k + 1)).prod := by
  induction l generalizing acc k with
  | nil => simp at hk
  | cons x xs ih =>
    cases k with
    | zero => simp [cumprodFrom]
    | succ j =>
      simp only [cumprodFrom, List.getD_cons_succ, List.take, List.prod_cons]
      rw [ih (acc * x) j (by simpa using hk)]
      ring

theorem getD_zip (l1 : List Nat) (l2 : List ℚ) (k : Nat)
    (h1 : k < l1.length) (h2 : k < l2.length) :
    (l1.zip l2).getD k (0, 0) = (l1.getD k 0, l2.getD k 0) := by
  induction l1 generalizing l2 k with
  | nil => simp at h1
  | cons x xs ih =>
    cases l2 with
    | nil => simp at h2
    | cons y ys =>
      cases k with
      | zero => rfl
      | succ j =>
        simp only [List.zip_cons_cons, List.getD_cons_succ]
        exact ih ys j (by simpa using h1) (by simpa using h2)

theorem getD_map_mul (l : List ℚ) (c : ℚ) (k : Nat) (hk : k < l.length) :
    (l.map (fun v => v * c)).getD k 0 = l.getD k 0 * c := by
  induction l generalizing k with
  | nil => simp at hk
  | cons x xs ih =>
    cases k with
    | zero => rfl
    | succ j => simpa using ih j (by simpa using hk)

/-! ## Claims -/

/-- C8: for every non-empty monthly return series (after dropping missing
values) the Sortino ratio is `+∞` iff the series has zero negative
observations; for an empty series it is `NaN`. -/
theorem C8_sortino_plus_infinity_iff (r : Series) :
    (sortino r = MetricValue.posInf ↔
      dropnaVals r ≠ [] ∧ (dropnaVals r).filter (fun x => decide (x < 0)) = []) ∧
    (dropnaVals r = [] → sortino r = MetricValue.nan) := by
  constructor
  · simp only [sortino]
    split_ifs with he hneg hd
    · simp only [List.isEmpty_iff] at he
      simp [he]
    · simp only [List.isEmpty_iff] at he
      simp only [List.length_eq_zero] at hneg
      simp [he, hneg]
    · constructor
      · intro h; exact absurd h (by simp)
      · rintro ⟨-, hf⟩
        rw [hf] at hneg
        simp at hneg
    · constructor
      · intro h; exact absurd h (by simp)
      · rintro ⟨-, hf⟩
        rw [hf] at hneg
        simp at hneg
  · intro h; simp [sortino, h]

/-- Witness for C8 at a concrete one-point positive series. -/
theorem C8_sortino_plus_infinity_iff_witness : sortino sortinoW = MetricValue.posInf :=
  (C8_sortino_plus_infinity_iff sortinoW).1.mpr (by decide)

/-- C4: with fewer than 8 paired observations the significance test returns
the `NaN` sentinel; with `n ≥ 8` and no lag count supplied, the HAC estimator
is called with exactly `max(1, round(n^0.25))` lags (characterized exactly by
`(2l-1)^4 ≤ 16n < (2l+1)^4`). -/
theorem C4_hac_sentinel_and_lags (active : Series) :
    ((dropnaVals active).length < 8 → hac_t_pvalue active none = none) ∧
    (8 ≤ (dropnaVals active).length →
      ∃ l, hac_t_pvalue active none = some (dropnaVals active, l) ∧
        l = max 1 (root4Round (dropnaVals active).length) ∧ 1 ≤ l ∧
        (2 * l - 1) ^ 4 ≤ 16 * (dropnaVals active).length ∧
        16 * (dropnaVals active).length < (2 * l + 1) ^ 4) := by
  constructor
  · intro h; simp [hac_t_pvalue, h]
  · intro h
    have h2 : 2 ≤ root4Round (dropnaVals active).length := root4Round_ge_two h
    have hmax : max 1 (root4Round (dropnaVals active).length) =
        root4Round (dropnaVals active).length := max_eq_right (by omega)
    refine ⟨max 1 (root4Round (dropnaVals active).length), ?_, rfl, le_max_left _ _, ?_, ?_⟩
    · simp [hac_t_pvalue, Nat.not_lt.mpr h]
    · rw [hmax]; exact (root4Round_char _).1
    · rw [hmax]; exact (root4Round_char _).2

/-- Witness for C4 at a concrete 16-point series (lag count 2). -/
theorem C4_hac_sentinel_and_lags_witness :
    ∃ l, hac_t_pvalue hacW none = some (dropnaVals hacW, l) ∧
      l = max 1 (root4Round (dropnaVals hacW).length) ∧ 1 ≤ l ∧
      (2 * l - 1) ^ 4 ≤ 16 * (dropnaVals hacW).length ∧
      16 * (dropnaVals hacW).length < (2 * l + 1) ^ 4 :=
  (C4_hac_sentinel_and_lags hacW).2 (by decide)

/-- C10: when every series of the mapping and the benchmark are all empty,
`align_common_start` takes the maximum of an empty collection — Python's
`max([])` raises `ValueError` (modelled by `none`) instead of returning
empty trimmed outputs. -/
theorem C10_align_empty_raises (sd : List (String × Series)) (bench : Series)
    (h1 : ∀ kv ∈ sd, kv.2 = []) (h2 : bench = []) :
    align_common_start sd bench = none := by
  have hs : sd.filterMap (fun kv => indexMin kv.2) = [] := by
    rw [List.filterMap_eq_nil_iff]
    intro kv hkv
    rw [h1 kv hkv]
    rfl
  subst h2
  simp only [align_common_start]
  rw [hs]
  rfl

/-- Witness for C10 at a concrete all-empty input. -/
theorem C10_align_empty_raises_witness : align_common_start alignSdE [] = none :=
  C10_align_empty_raises alignSdE [] (by decide) rfl

/-- C3: the cumulative index is anchored exactly at `start` on its first
point, and its value at position `k` is `start * Π_{i=1..k} (1 + rᵢ)` over
the date-sorted series, a missing return counting as 0. -/
theorem C3_cum_index_anchoring (r : Series) (start : ℚ) :
    (cum_index r start).length = r.length ∧
    (0 < r.length → ((cum_index r start).getD 0 (0, 0)).2 = start) ∧
    (∀ k, k < r.length →
      ((cum_index r start).getD k (0, 0)).2 =
        start * (((sortIndex r).take k).map (fun p => 1 + p.2.getD 0)).prod) := by
  have hlen_s : (sortIndex r).length = r.length := List.length_insertionSort _ _
  have hlen_cum : (cumprodFrom 1 ((sortIndex r).map (fun p => 1 + p.2.getD 0))).length
      = r.length := by
    rw [cumprodFrom_length, List.length_map, hlen_s]
  have hlen_shift :
      ((1 :: cumprodFrom 1 ((sortIndex r).map (fun p => 1 + p.2.getD 0))).take
        (sortIndex r).length).length = r.length := by
    simp [hlen_cum, hlen_s]
  have hmain : ∀ k, k < r.length →
      ((cum_index r start).getD k (0, 0)).2 =
        start * (((sortIndex r).take k).map (fun p => 1 + p.2.getD 0)).prod := by
    intro k hk
    simp only [cum_index]
    rw [getD_zip _ _ _ (by rw [List.length_map, hlen_s]; exact hk)
        (by rw [List.length_map, hlen_shift]; exact hk)]
    show ((1 :: cumprodFrom 1 ((sortIndex r).map (fun p => 1 + p.2.getD 0))).take
        (sortIndex r).length |>.map (fun v => v * start)).getD k 0 = _
    rw [getD_map_mul _ _ _ (by rw [hlen_shift]; exact hk)]
    rw [getD_take _ _ _ _ (by rw [hlen_s]; exact hk)]
    cases k with
    | zero => simp
    | succ j =>
      rw [List.getD_cons_succ, cumprodFrom_getD _ _ _ (by rw [List.length_map, hlen_s]; omega)]
      rw [← List.map_take]
      ring
  refine ⟨?_, fun h0 => by rw [hmain 0 h0]; simp, hmain⟩
  simp only [cum_index]
  rw [List.length_zip, List.length_map, List.length_map, hlen_shift, hlen_s, Nat.min_self]

/-- Witness for C3 at a concrete unsorted two-point series with one missing
value, evaluated at position 1. -/
theorem C3_cum_index_anchoring_witness :
    ((cum_index cumW 3).getD 1 ((0 : Nat), (0 : ℚ))).2 =
      3 * (((sortIndex cumW).take 1).map (fun p => 1 + p.2.getD 0)).prod :=
  (C3_cum_index_anchoring cumW 3).2.2 1 (by decide)

/-- C7: with at least one non-empty input, `align_common_start` succeeds; the
common start is the maximum over the earliest dates of the non-empty series
(benchmark included), and every output series keeps exactly its dates that
are `≥` the common start (an empty input stays empty). -/
theorem C7_align_common_start_spec (sd : List (String × Series)) (bench : Series)
    (hne : (∃ kv ∈ sd, kv.2 ≠ []) ∨ bench ≠ []) :
    ∃ aligned benchA cs,
      align_common_start sd bench = some (aligned, benchA, cs) ∧
      ((∃ kv ∈ sd, indexMin kv.2 = some cs) ∨ indexMin bench = some cs) ∧
      (∀ kv ∈ sd, ∀ m, indexMin kv.2 = some m → m ≤ cs) ∧
      (∀ m, indexMin bench = some m → m ≤ cs) ∧
      aligned.length = sd.length ∧
      (∀ i (hi : i < sd.length) (hi2 : i < aligned.length),
        (aligned[i]).1 = (sd[i]).1 ∧
        (∀ p : Nat × Option ℚ, p ∈ (aligned[i]).2 ↔ p ∈ (sd[i]).2 ∧ cs ≤ p.1) ∧
        ((sd[i]).2 = [] → (aligned[i]).2 = [])) ∧
      (∀ p : Nat × Option ℚ, p ∈ benchA ↔ p ∈ bench ∧ cs ≤ p.1) := by
  have hsne : sd.filterMap (fun kv => indexMin kv.2) ++ (indexMin bench).toList ≠ [] := by
    rcases hne with ⟨kv, hkv, hkv2⟩ | hb
    · obtain ⟨m, hm⟩ := minOf_isSome (l := kv.2.map Prod.fst) (by simpa using hkv2)
      exact List.ne_nil_of_mem (List.mem_append_left _ (List.mem_filterMap.mpr ⟨kv, hkv, hm⟩))
    · obtain ⟨m, hm⟩ := minOf_isSome (l := bench.map Prod.fst) (by simpa using hb)
      have hm2 : indexMin bench = some m := hm
      have : m ∈ (indexMin bench).toList := by rw [hm2]; simp
      exact List.ne_nil_of_mem (List.mem_append_right _ this)
  obtain ⟨cs, hcs⟩ := maxOf_isSome hsne
  have halign : align_common_start sd bench =
      some (sd.map (fun kv => (kv.1, kv.2.filter (fun p => decide (cs ≤ p.1)))),
            bench.filter (fun p => decide (cs ≤ p.1)), cs) := by
    simp only [align_common_start]
    rw [hcs]
  refine ⟨sd.map (fun kv => (kv.1, kv.2.filter (fun p => decide (cs ≤ p.1)))),
          bench.filter (fun p => decide (cs ≤ p.1)), cs, halign, ?_, ?_, ?_, ?_, ?_, ?_⟩
  · rcases List.mem_append.mp (maxOf_mem hcs) with h | h
    · exact Or.inl (List.mem_filterMap.mp h)
    · right
      cases hb : indexMin bench with
      | none => rw [hb] at h; simp at h
      | some m => rw [hb] at h; simp at h; rw [h]
  · intro kv hkv m hm
    exact le_maxOf hcs m (List.mem_append_left _ (List.mem_filterMap.mpr ⟨kv, hkv, hm⟩))
  · intro m hm
    exact le_maxOf hcs m (List.mem_append_right _ (by simp [hm]))
  · simp
  · intro i hi hi2
    have hget : (sd.map (fun kv => (kv.1, kv.2.filter (fun p => decide (cs ≤ p.1)))))[i] =
        ((sd[i]).1, (sd[i]).2.filter (fun p => decide (cs ≤ p.1))) := by
      simp
    refine ⟨by rw [hget], ?_, ?_⟩
    · intro p
      rw [hget]
      simp [List.mem_filter]
    · intro hnil
      rw [hget, hnil]
      rfl
  · intro p
    simp [List.mem_filter]

/-- Witness for C7 at a concrete mapping (one empty series) plus benchmark. -/
theorem C7_align_common_start_spec_witness :
    ∃ aligned benchA cs,
      align_common_start alignSdW alignBenchW = some (aligned, benchA, cs) := by
  obtain ⟨a, b, cs, h, -⟩ := C7_align_common_start_spec alignSdW alignBenchW (by decide)
  exact ⟨a, b, cs, h⟩

/-- C5: the Momentum Calculator assigns row `i` the score
`price(i-1)/price(i-1-L) - 1`; the score is absent for the first `L+1` rows
of an asset's history, absent whenever either read price is missing or
non-numeric (coercion already turned those into `none` — nothing raises),
and exactly `0` wherever defined on constant positive prices; the long
output contains exactly the defined cells. -/
theorem C5_momentum_score_definedness (P : Panel) (L : Nat) (hL : 1 ≤ L) :
    (∀ j s, (∀ i, i < s → cellAt (panelPx P) i j = none) →
      ∀ i, i ≤ s + L → momCell (panelPx P) L i j = none) ∧
    (∀ i j, cellAt (panelPx P) (i - 1) j = none → momCell (panelPx P) L i j = none) ∧
    (∀ i j, cellAt (panelPx P) (i - 1 - L) j = none → momCell (panelPx P) L i j = none) ∧
    (∀ i j a b, 1 ≤ i → 1 + L ≤ i → cellAt (panelPx P) (i - 1) j = some a →
      cellAt (panelPx P) (i - 1 - L) j = some b → b ≠ 0 →
      momCell (panelPx P) L i j = some (a / b - 1)) ∧
    (∀ c : ℚ, 0 < c →
      (∀ i j, cellAt (panelPx P) i j = none ∨ cellAt (panelPx P) i j = some c) →
      ∀ i j v, momCell (panelPx P) L i j = some v → v = 0) ∧
    (∀ d a v, (d, a, v) ∈ compute_momentum P L ↔
      ∃ i j, i < (sortRows P).length ∧ j < P.assets.length ∧
        d = ((sortRows P).map Prod.fst).getD i 0 ∧ a = P.assets.getD j "" ∧
        momCell (panelPx P) L i j = some v) := by
  refine ⟨?_, ?_, ?_, ?_, ?_, ?_⟩
  · intro j s hs i hi
    by_cases hge : 1 + L ≤ i
    · have hnone : cellAt (panelPx P) (i - 1 - L) j = none := hs _ (by omega)
      unfold momCell
      rw [if_pos hge, hnone]
      cases (if 1 ≤ i then cellAt (panelPx P) (i - 1) j else none) <;> rfl
    · unfold momCell
      rw [if_neg hge]
      cases (if 1 ≤ i then cellAt (panelPx P) (i - 1) j else none) <;> rfl
  · intro i j h
    by_cases h1 : 1 ≤ i
    · unfold momCell
      rw [if_pos h1, h]
    · unfold momCell
      rw [if_neg h1]
  · intro i j h
    by_cases h2 : 1 + L ≤ i
    · unfold momCell
      rw [if_pos h2, h]
      cases (if 1 ≤ i then cellAt (panelPx P) (i - 1) j else none) <;> rfl
    · unfold momCell
      rw [if_neg h2]
      cases (if 1 ≤ i then cellAt (panelPx P) (i - 1) j else none) <;> rfl
  · intro i j a b h1 h2 ha hb hb0
    unfold momCell
    rw [if_pos h1, if_pos h2, ha, hb]
    simp [hb0]
  · intro c hc hconst i j v hv
    unfold momCell at hv
    split at hv
    case _ a b ha hb =>
      have ha2 : cellAt (panelPx P) (i - 1) j = some a := by
        by_cases h1 : 1 ≤ i
        · rwa [if_pos h1] at ha
        · rw [if_neg h1] at ha; exact absurd ha (by simp)
      have hb2 : cellAt (panelPx P) (i - 1 - L) j = some b := by
        by_cases h2 : 1 + L ≤ i
        · rwa [if_pos h2] at hb
        · rw [if_neg h2] at hb; exact absurd hb (by simp)
      have hac : a = c := by
        rcases hconst (i - 1) j with h | h
        · rw [ha2] at h; exact absurd h (by simp)
        · rw [ha2] at h; exact Option.some.inj h
      have hbc : b = c := by
        rcases hconst (i - 1 - L) j with h | h
        · rw [hb2] at h; exact absurd h (by simp)
        · rw [hb2] at h; exact Option.some.inj h
      subst hac hbc
      rw [if_neg hc.ne'] at hv
      have := Option.some.inj hv
      rw [← this, div_self hc.ne']
      ring
    case _ => exact absurd hv (by simp)
  · intro d a v
    constructor
    · intro h
      simp only [compute_momentum] at h
      rw [List.mem_flatMap] at h
      obtain ⟨j, hj, h⟩ := h
      rw [List.mem_filterMap] at h
      obtain ⟨i, hi, hg⟩ := h
      rw [Option.map_eq_some'] at hg
      obtain ⟨w, hw, heq⟩ := hg
      obtain ⟨hd, ha, hv⟩ : ((sortRows P).map Prod.fst).getD i 0 = d ∧
          P.assets.getD j "" = a ∧ w = v := by
        simpa [Prod.ext_iff] using heq
      refine ⟨i, j, List.mem_range.mp hi, List.mem_range.mp hj, hd.symm, ha.symm, ?_⟩
      show momCell ((sortRows P).map Prod.snd) L i j = some v
      rw [← hv]
      exact hw
    · rintro ⟨i, j, hi, hj, hd, ha, hm⟩
      simp only [panelPx] at hm
      simp only [compute_momentum]
      rw [List.mem_flatMap]
      refine ⟨j, List.mem_range.mpr hj, ?_⟩
      rw [List.mem_filterMap]
      refine ⟨i, List.mem_range.mpr hi, ?_⟩
      rw [hm]
      simp [hd, ha]

/-- Witness for C5 at a concrete constant-price panel: the score at row 2,
lookback 1, equals `2/2 - 1`. -/
theorem C5_momentum_score_definedness_witness :
    momCell (panelPx panelW) 1 2 0 = some (2 / 2 - 1) :=
  (C5_momentum_score_definedness panelW 1 (by decide)).2.2.2.1 2 0 2 2 (by decide)
    (by decide) (by decide) (by decide) (by decide)

theorem compute_momentum_panelCex :
    compute_momentum panelCex 1 = [(2, "A", (10 : ℚ) / 1 - 1)] := rfl

theorem compute_momentum_panelW8 :
    compute_momentum panelW8 6 = [(7, "A", (1 : ℚ) / 1 - 1)] := rfl

theorem panelW8_mem : ((7 : Nat), "A", (0 : ℚ)) ∈ momentum_long_6m panelW8 := by
  unfold momentum_long_6m
  rw [compute_momentum_panelW8, show (1 : ℚ) / 1 - 1 = 0 by norm_num]
  rw [List.mem_filter]
  refine ⟨by simp, ?_⟩
  rw [decide_eq_true_eq]
  constructor <;> norm_num

/-- C6 counterexample: `compute_momentum` (the multi-horizon Momentum
Calculator) emits the score 9 — outside (−2, 2) — for a panel whose price
jumps tenfold: the multi-horizon script applies no outlier filter. -/
theorem C6_outlier_counterexample :
    ((2 : Nat), "A", (9 : ℚ)) ∈ compute_momentum panelCex 1 ∧ (2 : ℚ) ≤ 9 := by
  constructor
  · rw [compute_momentum_panelCex]
    norm_num
  · norm_num

/-- C6 amended: the single-horizon 6-month builder (`build_momentum.py`)
does filter, so every score of its long table lies strictly inside (−2, 2). -/
theorem C6_outlier_amended (P : Panel) :
    ∀ e ∈ momentum_long_6m P, -2 < e.2.2 ∧ e.2.2 < 2 := by
  intro e he
  have h := (List.mem_filter.mp he).2
  simpa using h

/-- Witness for the amended C6 at a concrete eight-row constant panel. -/
theorem C6_outlier_amended_witness : -2 < (0 : ℚ) ∧ (0 : ℚ) < 2 :=
  C6_outlier_amended panelW8 (7, "A", 0) panelW8_mem

theorem stepEmit_fst {mom : List MomRow} {rets : RetsPanel} {topN : Nat} {f h : Nat}
    {e : Nat × ℚ} (hse : stepEmit mom rets topN f h = some e) : e.1 = h := by
  simp only [stepEmit] at hse
  split_ifs at hse <;>
    first
      | exact Option.noConfusion hse
      | rw [← Option.some.inj hse]

theorem zip_tail_getD {l : List Nat} {p : Nat × Nat} (h : p ∈ l.zip l.tail) :
    ∃ t, t + 1 < l.length ∧ l.getD t 0 = p.1 ∧ l.getD (t + 1) 0 = p.2 := by
  induction l with
  | nil => simp at h
  | cons x xs ih =>
    cases xs with
    | nil => simp at h
    | cons y ys =>
      rw [List.tail_cons, List.zip_cons_cons] at h
      rcases List.mem_cons.mp h with he | hm
      · refine ⟨0, by simp, ?_, ?_⟩
        · simp [he]
        · simp [he]
      · obtain ⟨t, ht, h1, h2⟩ := ih hm
        exact ⟨t + 1, by simpa using ht, by simpa using h1, by simpa using h2⟩

/-- C1: a period whose holding date is absent from the return panel, or whose
selected assets have no available return, contributes nothing (skip, not
zero-fill); a period with a partial subset of returns emits their mean; and
when every period skips, the simulator returns the empty series, not an
error. -/
theorem C1_simulator_skip_semantics (mom : List MomRow) (rets : RetsPanel) (topN : Nat) :
    (∀ f h, h ∉ rets.index → stepEmit mom rets topN f h = none) ∧
    (∀ f h, (selectedCols mom rets topN f).filterMap (fun c => rets.cell h c) = [] →
      stepEmit mom rets topN f h = none) ∧
    (∀ f h, crossAt mom f ≠ [] → h ∈ rets.index →
      selectedCols mom rets topN f ≠ [] →
      (selectedCols mom rets topN f).filterMap (fun c => rets.cell h c) ≠ [] →
      stepEmit mom rets topN f h =
        some (h, meanQ ((selectedCols mom rets topN f).filterMap (fun c => rets.cell h c)))) ∧
    ((∀ p ∈ (momDates mom).zip (momDates mom).tail, stepEmit mom rets topN p.1 p.2 = none) →
      build_portfolio_returns mom rets topN = []) := by
  refine ⟨?_, ?_, ?_, ?_⟩
  · intro f h hmem
    simp only [stepEmit]
    split_ifs <;> rfl
  · intro f h hvals
    simp only [stepEmit]
    split_ifs with h1 h2 h3 h4 <;> try rfl
    exact absurd (List.isEmpty_iff.mpr hvals) h4
  · intro f h hcross hidx hcols hvals
    simp only [stepEmit]
    rw [if_neg (by simpa [List.isEmpty_iff] using hcross), if_pos hidx,
      if_neg (by simpa [List.isEmpty_iff] using hcols),
      if_neg (by simpa [List.isEmpty_iff] using hvals)]
  · intro hall
    simp only [build_portfolio_returns]
    rw [List.filterMap_eq_nil_iff]
    intro p hp
    exact hall p hp

/-- Witness for C1: a holding date absent from the panel index is skipped. -/
theorem C1_simulator_skip_semantics_witness : stepEmit momW retsW 2 0 5 = none :=
  (C1_simulator_skip_semantics momW retsW 2).1 0 5 (by decide)

/-- C2: every emission of the simulator comes from a formation index `t` with
`t + 1` still inside the distinct-date list — the last formation date never
emits — and a two-date table with data at the later date yields exactly one
entry, indexed at the second date. -/
theorem C2_no_emission_for_last_formation (mom : List MomRow) (rets : RetsPanel) (topN : Nat) :
    (∀ e ∈ build_portfolio_returns mom rets topN,
      ∃ t, t + 1 < (momDates mom).length ∧
        e.1 = (momDates mom).getD (t + 1) 0 ∧
        stepEmit mom rets topN ((momDates mom).getD t 0) ((momDates mom).getD (t + 1) 0) =
          some e) ∧
    (∀ d1 d2, momDates mom = [d1, d2] → crossAt mom d1 ≠ [] → 1 ≤ topN →
      d2 ∈ rets.index →
      (∀ c ∈ tickersAt mom topN d1, c ∈ rets.cols ∧ rets.cell d2 c ≠ none) →
      ∃ v, build_portfolio_returns mom rets topN = [(d2, v)]) := by
  constructor
  · intro e he
    simp only [build_portfolio_returns] at he
    rw [List.mem_filterMap] at he
    obtain ⟨p, hp, hpe⟩ := he
    obtain ⟨t, ht, h1, h2⟩ := zip_tail_getD hp
    refine ⟨t, ht, ?_, ?_⟩
    · rw [stepEmit_fst hpe, h2]
    · rw [h1, h2]
      exact hpe
  · intro d1 d2 hdates hcross htop hidx hcols
    have hlen : (sortDescByScore (crossAt mom d1)).length = (crossAt mom d1).length :=
      List.length_insertionSort _ _
    have hlen2 : (tickersAt mom topN d1).length = min topN (crossAt mom d1).length := by
      simp [tickersAt, hlen]
    have hcl : 0 < (crossAt mom d1).length := List.length_pos.mpr hcross
    have hticks : tickersAt mom topN d1 ≠ [] := by
      apply List.length_pos.mp
      rw [hlen2]
      omega
    have hsel : selectedCols mom rets topN d1 = tickersAt mom topN d1 := by
      unfold selectedCols
      apply List.filter_eq_self.mpr
      intro c hc
      exact decide_eq_true (hcols c hc).1
    obtain ⟨c0, hc0⟩ := List.exists_mem_of_ne_nil _ hticks
    have hvals : (selectedCols mom rets topN d1).filterMap (fun c => rets.cell d2 c) ≠ [] := by
      rw [hsel]
      intro hnil
      rw [List.filterMap_eq_nil_iff] at hnil
      exact (hcols c0 hc0).2 (hnil c0 hc0)
    have hcne : selectedCols mom rets topN d1 ≠ [] := by
      rw [hsel]; exact hticks
    have hstep : stepEmit mom rets topN d1 d2 =
        some (d2, meanQ ((selectedCols mom rets topN d1).filterMap (fun c => rets.cell d2 c))) := by
      simp only [stepEmit]
      rw [if_neg (by simpa [List.isEmpty_iff] using hcross), if_pos hidx,
        if_neg (by simpa [List.isEmpty_iff] using hcne),
        if_neg (by simpa [List.isEmpty_iff] using hvals)]
    refine ⟨meanQ ((selectedCols mom rets topN d1).filterMap (fun c => rets.cell d2 c)), ?_⟩
    simp only [build_portfolio_returns]
    rw [hdates]
    show List.filterMap _ [(d1, d2)] = _
    rw [List.filterMap_cons]
    rw [hstep]
    rfl

/-- Witness for C2: a concrete two-date table produces exactly one entry at
the second date. -/
theorem C2_no_emission_for_last_formation_witness :
    ∃ v, build_portfolio_returns momW2 retsW2 1 = [(1, v)] :=
  (C2_no_emission_for_last_formation momW2 retsW2 1).2 0 1 (by decide) (by decide)
    (by decide) (by decide) (by decide)

end Momentum
